import Mathlib

/-!
Verification of `aiida_quantumespresso/workflows/protocols/utils.py`.

Python dictionaries (as produced by `yaml.safe_load`) are modelled as
association lists with string keys and `Val` values, preserving insertion
order.  Python dictionaries never contain duplicate keys; where a statement
needs this invariant it is an explicit hypothesis (`nodupKeys`, `dictWF`).
Exceptions (KeyError from indexing and `pop`, errors from the external
pseudopotential lookup) are modelled with `Except`.
-/

/-- Values stored in a YAML-loaded dictionary: scalars (numbers, strings),
sequences (YAML lists), and nested mappings. -/
inductive Val where
  | prim : Int → Val
  | str : String → Val
  | seq : List Val → Val
  | map : List (String × Val) → Val

/-- The model of a Python dictionary: an insertion-ordered association list. -/
abbrev Dict := List (String × Val)

/-- Lookup of `d[key]` (first occurrence), `none` when the key is absent. -/
def lookupD {α : Type} : List (String × α) → String → Option α
  | [], _ => none
  | (k, v) :: rest, key => if k = key then some v else lookupD rest key

/-- Assignment `d[key] = val`: replace the value at the key in place,
appending the pair at the end when the key is absent (Python dict assignment). -/
def setD {α : Type} : List (String × α) → String → α → List (String × α)
  | [], key, val => [(key, val)]
  | (k, v) :: rest, key, val =>
    if k = key then (key, val) :: rest else (k, v) :: setD rest key val

/-- The effect of `merged.update(right)`: assign every pair of `right`
into `merged`, in iteration order. -/
def updateD {α : Type} (merged : List (String × α)) : List (String × α) → List (String × α)
  | [] => merged
  | (k, v) :: rest => updateD (setD merged k v) rest

/-- Key list of a dictionary, in order. -/
def keysD {α : Type} (d : List (String × α)) : List String := d.map Prod.fst

/-- Removal of the (first occurrence of the) key, the effect of a successful
`d.pop(key)` on `d`. -/
def eraseKey {α : Type} : List (String × α) → String → List (String × α)
  | [], _ => []
  | (k, v) :: rest, key => if k = key then rest else (k, v) :: eraseKey rest key

/-- Boolean membership test on a list of strings. -/
def memS (x : String) : List String → Bool
  | [] => false
  | y :: rest => if y = x then true else memS x rest

/-- Boolean test that a list of keys has no duplicates; a Python dictionary
always satisfies this on its keys. -/
def nodupKeys : List String → Bool
  | [] => true
  | k :: rest => !memS k rest && nodupKeys rest

/-- First-of-two-options combinator, used to state the effect of
`merged.update(right)` on lookups. -/
def orD {α : Type} (a b : Option α) : Option α :=
  match a with
  | some v => some v
  | none => b

mutual

/-- Embedding of `recursive_merge(left, right)` from
`workflows/protocols/utils.py`: first the loop over `left.items()` updates
`right` in place at every key where both values are mappings, then the
result is `left.copy()` updated with the (mutated) `right`. -/
def recursive_merge (left right : Dict) : Dict :=
  updateD left (mergeLoop left right)
termination_by (sizeOf left, 2)

/-- The `for key, value in left.items()` loop of `recursive_merge`, threading
the in-place mutations of `right`; its result is the state of the `right`
dictionary when the loop has finished. -/
def mergeLoop : Dict → Dict → Dict
  | [], right => right
  | (key, value) :: rest, right => mergeLoop rest (mergeKey right key value)
termination_by l _ => (sizeOf l, 1)

/-- One iteration of the `recursive_merge` loop: when `key in right` and both
`value` and `right[key]` are mappings, perform
`right[key] = recursive_merge(value, right[key])`; otherwise leave `right`
unchanged. -/
def mergeKey (right : Dict) (key : String) (value : Val) : Dict :=
  match lookupD right key, value with
  | some (.map rm), .map lm => setD right key (.map (recursive_merge lm rm))
  | _, _ => right
termination_by (sizeOf value, 0)

end

/-- State of the `right` argument after `recursive_merge(left, right)`
returns: the loop body mutates `right` in place (`right[key] = ...`), so the
caller's dictionary ends up as `mergeLoop left right`.  The `left` argument
is only read, never written. -/
def right_after_merge (left right : Dict) : Dict := mergeLoop left right

mutual

/-- Well-formedness of a value: every mapping nested inside it has
duplicate-free keys.  Values produced by `yaml.safe_load` always satisfy
this. -/
def valWF : Val → Bool
  | .prim _ => true
  | .str _ => true
  | .seq _ => true
  | .map d => dictWF d
termination_by v => (sizeOf v, 1)

/-- Well-formedness of a dictionary: duplicate-free keys, and all values
well-formed. -/
def dictWF (d : Dict) : Bool :=
  nodupKeys (keysD d) && allValsWF d
termination_by (sizeOf d, 2)

/-- All values of an association list are well-formed. -/
def allValsWF : Dict → Bool
  | [] => true
  | (_, v) :: rest => valWF v && allValsWF rest
termination_by d => (sizeOf d, 0)

end

/-- Path lookup in nested dictionaries: `getPath d [k1, ..., kn]` follows the
keys through nested mappings and returns the value at the end of the path. -/
def getPath : Dict → List String → Option Val
  | _, [] => none
  | d, [k] => lookupD d k
  | d, k :: rest =>
    match lookupD d k with
    | some (.map m) => getPath m rest
    | _ => none

/-- Python exceptions surfaced by the protocol utilities: `KeyError` from
dictionary indexing or `pop`, and the error raised by the external
pseudopotential lookup. -/
inductive PyErr where
  | keyError (key : String)
  | valueError
deriving DecidableEq

/-- The contents of a protocol YAML document as loaded by
`load_protocol_file`: a `default` protocol name, a `protocols` mapping whose
values are the per-protocol mappings, and a `base` mapping. -/
structure ProtocolDocument where
  defaultProtocol : String
  protocols : List (String × Dict)
  base : Dict

/-- Embedding of the per-protocol dictionary comprehension of
`get_available_protocols`: for each protocol in order, build the mapping
holding only its `description`; indexing `values['description']` raises
`KeyError` when absent. -/
def availLoop : List (String × Dict) → Except PyErr (List (String × Dict))
  | [] => .ok []
  | (p, values) :: rest =>
    match lookupD values "description" with
    | none => .error (.keyError "description")
    | some d =>
      match availLoop rest with
      | .ok l => .ok ((p, [("description", d)]) :: l)
      | .error e => .error e

/-- Embedding of `get_available_protocols(cls)`, applied to the loaded
protocol document. -/
def get_available_protocols (data : ProtocolDocument) : Except PyErr (List (String × Dict)) :=
  availLoop data.protocols

/-- Embedding of `get_protocol_inputs(cls, protocol, overrides)`, applied to
the loaded protocol document.  `protocol or data['default']` falls back to
the default when `protocol` is `None` or the empty string (Python
truthiness); `data['protocols'][protocol]` raises `KeyError` for an unknown
protocol; `inputs.pop('description')` raises `KeyError` when absent;
`if overrides:` skips the final merge for `None` or an empty mapping. -/
def get_protocol_inputs (data : ProtocolDocument) (protocol : Option String)
    (overrides : Option Dict) : Except PyErr Dict :=
  let protocolName :=
    match protocol with
    | none => data.defaultProtocol
    | some p => if p = "" then data.defaultProtocol else p
  match lookupD data.protocols protocolName with
  | none => .error (.keyError protocolName)
  | some protoDict =>
    let merged := recursive_merge data.base protoDict
    match lookupD merged "description" with
    | none => .error (.keyError "description")
    | some _ =>
      let inputs := eraseKey merged "description"
      match overrides with
      | none => .ok inputs
      | some ov => if ov.isEmpty then .ok inputs else .ok (recursive_merge inputs ov)

/-- A kind of an AiiDA structure: a kind name and the element symbol. -/
structure Kind where
  name : String
  symbol : String
deriving DecidableEq

/-- Modelled from the spec: the data of `magnetization.yaml` (not under
`src/`), read by `get_magnetization_parameters`.  The file maps each element
symbol to a mapping with a `magmom` entry, and holds a number under the key
`default`.  Numbers are modelled as rationals. -/
structure MagTable where
  entries : List (String × ℚ)
  defaultValue : ℚ

/-- Modelled from the spec: the valence-electron count `z_valence` that
`pseudo_family.get_pseudo(element=symbol)` reports (external `aiida-pseudo`
package, not part of this repository), `none` when the family has no
pseudopotential for the symbol, in which case the call raises. -/
abbrev ZValence := String → Option Nat

/-- The `for kind in structure.kinds` loop of `get_initial_magnetization`,
accumulating the `initial_magnetization` dictionary: look up
`magnetic_parameters[kind.symbol]['magmom']` (a `KeyError` when the symbol is
not tabulated); when the moment is zero use `magnetic_parameters['default']`,
otherwise divide the moment by `float(z_valence)` from the pseudopotential
family. -/
def magLoop (table : MagTable) (zval : ZValence) :
    List Kind → List (String × ℚ) → Except PyErr (List (String × ℚ))
  | [], acc => .ok acc
  | kind :: rest, acc =>
    match lookupD table.entries kind.symbol with
    | none => .error (.keyError kind.symbol)
    | some mm =>
      if mm = 0 then
        magLoop table zval rest (setD acc kind.name table.defaultValue)
      else
        match zval kind.symbol with
        | none => .error .valueError
        | some z => magLoop table zval rest (setD acc kind.name (mm / (z : ℚ)))

/-- Embedding of `get_initial_magnetization(structure, pseudo_family)`:
the structure contributes its list of kinds, the magnetization table and the
valence lookup are parameters. -/
def get_initial_magnetization (kinds : List Kind) (table : MagTable) (zval : ZValence) :
    Except PyErr (List (String × ℚ)) :=
  magLoop table zval kinds []

/-- The magnetization value the spec assigns to a kind with the given element
symbol: the table's default when the tabulated moment is zero, otherwise the
moment divided by the valence-electron count; `none` when a lookup fails. -/
def kindMagnetization (table : MagTable) (zval : ZValence) (symbol : String) : Option ℚ :=
  match lookupD table.entries symbol with
  | none => none
  | some mm =>
    if mm = 0 then some table.defaultValue
    else
      match zval symbol with
      | none => none
      | some z => some (mm / (z : ℚ))

/-- Concrete dictionaries used to instantiate the theorems below on explicit
inputs. -/
def exLeft : Dict :=
  [("a", Val.map [("x", Val.prim 1)]), ("b", Val.prim 2), ("s", Val.seq [Val.prim 1])]

/-- Concrete right-hand dictionary for instantiating the merge theorems. -/
def exRight : Dict :=
  [("a", Val.map [("x", Val.prim 9), ("y", Val.prim 3)]), ("s", Val.seq []), ("c", Val.prim 4)]

/-- Concrete left argument whose nested mapping triggers the in-place
mutation of the right argument. -/
def exMutLeft : Dict := [("a", Val.map [("b", Val.prim 1)])]

/-- Concrete right argument mutated by `recursive_merge`. -/
def exMutRight : Dict := [("a", Val.map [])]

/-- Concrete per-protocol dictionary. -/
def exProtocol : Dict :=
  [("description", Val.str "balanced"), ("x", Val.prim 1),
   ("sub", Val.map [("y", Val.prim 2), ("z", Val.prim 3)])]

/-- Concrete protocol document. -/
def exDoc : ProtocolDocument :=
  ⟨"moderate", [("moderate", exProtocol)], [("sub", Val.map [("w", Val.prim 7)])]⟩

/-- Concrete user overrides. -/
def exOverrides : Dict := [("sub", Val.map [("y", Val.prim 9)])]

/-- Concrete protocol document with an empty base, whose only protocol is the
default one. -/
def exDoc2 : ProtocolDocument :=
  ⟨"moderate", [("moderate", [("description", Val.str "d"), ("x", Val.prim 1)])], []⟩

/-- Concrete magnetization table: iron with a nonzero tabulated moment,
oxygen with a zero one. -/
def exTable : MagTable := ⟨[("Fe", 4), ("O", 0)], 3 / 5⟩

/-- Concrete valence-electron lookup. -/
def exZval : ZValence := fun s => if s = "Fe" then some 16 else some 6

/-- Concrete kinds; two share the element symbol `Fe` under different names. -/
def exKinds : List Kind := [⟨"Fe", "Fe"⟩, ⟨"Fe2", "Fe"⟩, ⟨"O", "O"⟩]

/-- The magnetization dictionary produced for `exKinds`. -/
def exMag : List (String × ℚ) := [("Fe", 1 / 4), ("Fe2", 1 / 4), ("O", 3 / 5)]

/-! Basic lemmas about the dictionary operations. -/

theorem memS_iff {x : String} {l : List String} : memS x l = true ↔ x ∈ l := by
  induction l with
  | nil => simp [memS]
  | cons y rest ih =>
    by_cases h : y = x
    · simp [memS, h]
    · rw [show memS x (y :: rest) = memS x rest by simp [memS, h], ih]
      constructor
      · exact fun hx => List.mem_cons_of_mem _ hx
      · intro hx
        rcases List.mem_cons.mp hx with heq | hm
        · exact absurd heq.symm h
        · exact hm

theorem memS_eq_false_iff {x : String} {l : List String} : memS x l = false ↔ x ∉ l := by
  rw [← Bool.not_eq_true, not_iff_not]
  exact memS_iff

theorem nodupKeys_cons {k : String} {ks : List String} :
    nodupKeys (k :: ks) = true ↔ memS k ks = false ∧ nodupKeys ks = true := by
  simp [nodupKeys, Bool.and_eq_true, Bool.not_eq_true']

theorem lookupD_eq_none_iff {α : Type} {d : List (String × α)} {k : String} :
    lookupD d k = none ↔ k ∉ keysD d := by
  induction d with
  | nil => simp [lookupD, keysD]
  | cons kv rest ih =>
    obtain ⟨k0, v0⟩ := kv
    by_cases h : k0 = k
    · simp [lookupD, h, keysD]
    · have hne : k ≠ k0 := fun hx => h hx.symm
      rw [show keysD ((k0, v0) :: rest) = k0 :: keysD rest from rfl]
      simp [lookupD, h, ih, List.mem_cons, hne, not_or]

theorem lookupD_isSome_iff {α : Type} {d : List (String × α)} {k : String} :
    (lookupD d k).isSome = true ↔ k ∈ keysD d := by
  have hiff := @lookupD_eq_none_iff α d k
  constructor
  · intro hs
    by_contra hmem
    rw [hiff.mpr hmem] at hs
    simp at hs
  · intro hmem
    cases h : lookupD d k with
    | none => exact absurd (hiff.mp h) (fun hx => hx hmem)
    | some v => simp

theorem lookupD_setD {α : Type} (m : List (String × α)) (key : String) (val : α) (k : String) :
    lookupD (setD m key val) k = if key = k then some val else lookupD m k := by
  induction m with
  | nil => simp [setD, lookupD]
  | cons kv rest ih =>
    obtain ⟨k0, v0⟩ := kv
    by_cases h : k0 = key
    · subst h
      by_cases hk : k0 = k <;> simp [setD, lookupD, hk]
    · by_cases hk : k0 = k
      · subst hk
        have hne : ¬ key = k0 := fun hx => h hx.symm
        simp [setD, lookupD, h, hne]
      · simp [setD, lookupD, h, hk, ih]

theorem keysD_setD {α : Type} (m : List (String × α)) (key : String) (val : α) :
    keysD (setD m key val) = if key ∈ keysD m then keysD m else keysD m ++ [key] := by
  induction m with
  | nil => simp [setD, keysD]
  | cons kv rest ih =>
    obtain ⟨k0, v0⟩ := kv
    by_cases h : k0 = key
    · subst h
      simp [setD, keysD]
    · have hne : ¬ key = k0 := fun hx => h hx.symm
      rw [show setD ((k0, v0) :: rest) key val = (k0, v0) :: setD rest key val by
        simp [setD, h]]
      rw [show keysD ((k0, v0) :: setD rest key val) = k0 :: keysD (setD rest key val) from rfl]
      rw [show keysD ((k0, v0) :: rest) = k0 :: keysD rest from rfl, ih]
      by_cases hmem : key ∈ keysD rest
      · simp [hmem, hne]
      · simp [hmem, hne]

theorem keysD_setD_of_mem {α : Type} {m : List (String × α)} {key : String} (val : α)
    (h : key ∈ keysD m) : keysD (setD m key val) = keysD m := by
  simp [keysD_setD, h]

theorem lookupD_mem {α : Type} {d : List (String × α)} {k : String} {v : α}
    (h : lookupD d k = some v) : (k, v) ∈ d := by
  induction d with
  | nil => simp [lookupD] at h
  | cons kv rest ih =>
    obtain ⟨k0, v0⟩ := kv
    by_cases hk : k0 = k
    · subst hk
      simp [lookupD] at h
      simp [h]
    · simp [lookupD, hk] at h
      exact List.mem_cons_of_mem _ (ih h)

theorem mem_lookupD_of_nodup {α : Type} {d : List (String × α)} {k : String} {v : α}
    (hnd : nodupKeys (keysD d) = true) (h : (k, v) ∈ d) : lookupD d k = some v := by
  induction d with
  | nil => simp at h
  | cons kv rest ih =>
    obtain ⟨k0, v0⟩ := kv
    rw [show keysD ((k0, v0) :: rest) = k0 :: keysD rest from rfl, nodupKeys_cons] at hnd
    rcases List.mem_cons.mp h with heq | hmem
    · obtain ⟨hk, hv⟩ := Prod.mk.injEq .. ▸ heq.symm
      simp [lookupD, hk, hv]
    · by_cases hk : k0 = k
      · subst hk
        have : k0 ∈ keysD rest := by
          simpa [keysD] using List.mem_map_of_mem Prod.fst hmem
        rw [memS_eq_false_iff] at hnd
        exact absurd this hnd.1
      · simp [lookupD, hk]
        exact ih hnd.2 hmem

theorem setD_self {α : Type} {m : List (String × α)} {k : String} {v : α}
    (h : lookupD m k = some v) : setD m k v = m := by
  induction m with
  | nil => simp [lookupD] at h
  | cons kv rest ih =>
    obtain ⟨k0, v0⟩ := kv
    by_cases hk : k0 = k
    · subst hk
      simp [lookupD] at h
      simp [setD, h]
    · simp [lookupD, hk] at h
      simp [setD, hk, ih h]

theorem updateD_self {α : Type} {m r : List (String × α)}
    (h : ∀ kv ∈ r, lookupD m kv.1 = some kv.2) : updateD m r = m := by
  induction r with
  | nil => rfl
  | cons kv rest ih =>
    obtain ⟨k0, v0⟩ := kv
    have h0 : lookupD m k0 = some v0 := h (k0, v0) (List.mem_cons_self _ _)
    rw [show updateD m ((k0, v0) :: rest) = updateD (setD m k0 v0) rest from rfl,
      setD_self h0]
    exact ih fun kv hkv => h kv (List.mem_cons_of_mem _ hkv)

theorem lookupD_updateD {α : Type} (m : List (String × α)) (r : List (String × α)) (k : String)
    (hnd : nodupKeys (keysD r) = true) :
    lookupD (updateD m r) k = orD (lookupD r k) (lookupD m k) := by
  induction r generalizing m with
  | nil => simp [updateD, lookupD, orD]
  | cons kv rest ih =>
    obtain ⟨k0, v0⟩ := kv
    rw [show keysD ((k0, v0) :: rest) = k0 :: keysD rest from rfl, nodupKeys_cons] at hnd
    rw [show updateD m ((k0, v0) :: rest) = updateD (setD m k0 v0) rest from rfl,
      ih _ hnd.2]
    by_cases hk : k0 = k
    · subst hk
      have hnone : lookupD rest k0 = none := by
        rw [lookupD_eq_none_iff]
        exact memS_eq_false_iff.mp hnd.1
      simp [lookupD, hnone, orD, lookupD_setD]
    · simp [lookupD, hk, lookupD_setD, orD]

theorem mem_keysD_updateD {α : Type} {m r : List (String × α)} {k : String}
    (h : k ∈ keysD m ∨ k ∈ keysD r) : k ∈ keysD (updateD m r) := by
  induction r generalizing m with
  | nil => simpa [updateD, keysD] using h
  | cons kv rest ih =>
    obtain ⟨k0, v0⟩ := kv
    rw [show updateD m ((k0, v0) :: rest) = updateD (setD m k0 v0) rest from rfl]
    apply ih
    rcases h with hm | hr
    · left
      rw [keysD_setD]
      split <;> simp [hm]
    · rw [show keysD ((k0, v0) :: rest) = k0 :: keysD rest from rfl] at hr
      rcases List.mem_cons.mp hr with heq | hmem
      · subst heq
        left
        rw [keysD_setD]
        split <;> simp_all
      · right
        exact hmem

/-! Characterization of `recursive_merge` through lookups. -/

/-- Value found at a key in the mutated `right` dictionary after the
`recursive_merge` loop, as a function of the values the two arguments held at
that key. -/
def loopLookup (lv rv : Option Val) : Option Val :=
  match lv, rv with
  | some (.map lm), some (.map rm) => some (.map (recursive_merge lm rm))
  | _, rv => rv

/-- Value found at a key in the result of `recursive_merge`, as a function of
the values the two arguments held at that key: the recursive merge when both
are mappings, otherwise the right value, falling back to the left one. -/
def mergedLookup (lv rv : Option Val) : Option Val :=
  match lv, rv with
  | some (.map lm), some (.map rm) => some (.map (recursive_merge lm rm))
  | lv, rv => orD rv lv

theorem loopLookup_none (rv : Option Val) : loopLookup none rv = rv := by
  cases rv with
  | none => rfl
  | some w => cases w <;> rfl

theorem orD_loopLookup (lv rv : Option Val) :
    orD (loopLookup lv rv) lv = mergedLookup lv rv := by
  cases lv with
  | none =>
    cases rv with
    | none => rfl
    | some w => cases w <;> rfl
  | some v =>
    cases rv with
    | none => cases v <;> rfl
    | some w => cases v <;> cases w <;> rfl

theorem keysD_mergeKey (r : Dict) (key : String) (value : Val) :
    keysD (mergeKey r key value) = keysD r := by
  have hmem : ∀ rm : List (String × Val), lookupD r key = some (Val.map rm) → key ∈ keysD r := by
    intro rm hr
    rw [← lookupD_isSome_iff, hr]
    rfl
  cases hrv : lookupD r key with
  | none => cases value <;> simp [mergeKey, hrv]
  | some w =>
    cases w with
    | prim n => cases value <;> simp [mergeKey, hrv]
    | str s => cases value <;> simp [mergeKey, hrv]
    | seq vs => cases value <;> simp [mergeKey, hrv]
    | map rm =>
      cases value with
      | prim n => simp [mergeKey, hrv]
      | str s => simp [mergeKey, hrv]
      | seq vs => simp [mergeKey, hrv]
      | map lm => simp [mergeKey, hrv, keysD_setD_of_mem _ (hmem rm hrv)]

theorem lookupD_mergeKey_ne (r : Dict) (key : String) (value : Val) (k : String)
    (h : ¬ key = k) : lookupD (mergeKey r key value) k = lookupD r k := by
  cases hrv : lookupD r key with
  | none => cases value <;> simp [mergeKey, hrv]
  | some w =>
    cases w <;> cases value <;> simp [mergeKey, hrv, lookupD_setD, h]

theorem keysD_mergeLoop (l r : Dict) : keysD (mergeLoop l r) = keysD r := by
  induction l generalizing r with
  | nil => rw [mergeLoop]
  | cons kv rest ih =>
    obtain ⟨k0, v0⟩ := kv
    rw [mergeLoop, ih, keysD_mergeKey]

theorem lookupD_mergeLoop (l : Dict) (r : Dict) (k : String)
    (hnd : nodupKeys (keysD l) = true) :
    lookupD (mergeLoop l r) k = loopLookup (lookupD l k) (lookupD r k) := by
  induction l generalizing r with
  | nil =>
    rw [mergeLoop, show lookupD ([] : Dict) k = none from rfl, loopLookup_none]
  | cons kv rest ih =>
    obtain ⟨k0, v0⟩ := kv
    rw [show keysD ((k0, v0) :: rest) = k0 :: keysD rest from rfl, nodupKeys_cons] at hnd
    rw [mergeLoop, ih _ hnd.2]
    by_cases hk : k0 = k
    · subst hk
      have hrest : lookupD rest k0 = none := by
        rw [lookupD_eq_none_iff]
        exact memS_eq_false_iff.mp hnd.1
      rw [hrest, loopLookup_none,
        show lookupD ((k0, v0) :: rest) k0 = some v0 by simp [lookupD]]
      cases hrv : lookupD r k0 with
      | none => cases v0 <;> simp [mergeKey, hrv, loopLookup]
      | some w =>
        cases w <;> cases v0 <;> simp [mergeKey, hrv, loopLookup, lookupD_setD]
    · rw [show lookupD ((k0, v0) :: rest) k = lookupD rest k by simp [lookupD, hk],
        lookupD_mergeKey_ne _ _ _ _ hk]

theorem lookupD_recursive_merge (l r : Dict) (k : String)
    (hl : nodupKeys (keysD l) = true) (hr : nodupKeys (keysD r) = true) :
    lookupD (recursive_merge l r) k = mergedLookup (lookupD l k) (lookupD r k) := by
  rw [recursive_merge]
  rw [lookupD_updateD _ _ _ (by rw [keysD_mergeLoop] ; exact hr)]
  rw [lookupD_mergeLoop l r k hl, orD_loopLookup]

/-! Well-formedness lemmas. -/

theorem nodupKeys_iff {ks : List String} : nodupKeys ks = true ↔ ks.Nodup := by
  induction ks with
  | nil => simp [nodupKeys]
  | cons k rest ih =>
    rw [nodupKeys_cons, List.nodup_cons, memS_eq_false_iff, ih]

theorem allValsWF_iff {d : Dict} : allValsWF d = true ↔ ∀ kv ∈ d, valWF kv.2 = true := by
  induction d with
  | nil => simp [allValsWF]
  | cons kv rest ih =>
    obtain ⟨k0, v0⟩ := kv
    rw [show allValsWF ((k0, v0) :: rest) = (valWF v0 && allValsWF rest) by rw [allValsWF]]
    rw [Bool.and_eq_true, ih]
    constructor
    · intro hx kv hkv
      rcases List.mem_cons.mp hkv with heq | hm
      · rw [heq]
        exact hx.1
      · exact hx.2 kv hm
    · intro hx
      exact ⟨hx (k0, v0) (List.mem_cons_self _ _), fun kv hkv => hx kv (List.mem_cons_of_mem _ hkv)⟩

theorem dictWF_iff {d : Dict} :
    dictWF d = true ↔ nodupKeys (keysD d) = true ∧ ∀ kv ∈ d, valWF kv.2 = true := by
  rw [dictWF, Bool.and_eq_true, allValsWF_iff]

theorem valWF_map {m : List (String × Val)} : valWF (Val.map m) = dictWF m := by
  rw [valWF]

theorem valWF_of_lookup {d : Dict} {k : String} {v : Val}
    (hwf : dictWF d = true) (h : lookupD d k = some v) : valWF v = true :=
  (dictWF_iff.mp hwf).2 (k, v) (lookupD_mem h)

theorem dictWF_of_lookup_map {d : Dict} {k : String} {m : List (String × Val)}
    (hwf : dictWF d = true) (h : lookupD d k = some (Val.map m)) : dictWF m = true := by
  have := valWF_of_lookup hwf h
  rwa [valWF_map] at this

theorem nodupKeys_of_dictWF {d : Dict} (hwf : dictWF d = true) :
    nodupKeys (keysD d) = true :=
  (dictWF_iff.mp hwf).1

theorem sizeOf_snd_lt_of_mem {d : Dict} {kv : String × Val} (h : kv ∈ d) :
    sizeOf kv.2 < sizeOf d := by
  induction d with
  | nil => simp at h
  | cons kv0 rest ih =>
    rcases List.mem_cons.mp h with heq | hm
    · subst heq
      obtain ⟨k0, v0⟩ := kv
      simp only [List.cons.sizeOf_spec, Prod.mk.sizeOf_spec]
      omega
    · have hlt := ih hm
      obtain ⟨k0, v0⟩ := kv0
      simp only [List.cons.sizeOf_spec, Prod.mk.sizeOf_spec]
      omega

theorem sizeOf_lt_of_lookup {d : Dict} {k : String} {m : List (String × Val)}
    (h : lookupD d k = some (Val.map m)) : sizeOf m < sizeOf d := by
  have hm : sizeOf (Val.map m) < sizeOf d := sizeOf_snd_lt_of_mem (lookupD_mem h)
  have h2 : sizeOf (Val.map m) = 1 + sizeOf m := by
    simp only [Val.map.sizeOf_spec]
  omega

theorem nodupKeys_setD {α : Type} {m : List (String × α)} {k : String} (v : α)
    (h : nodupKeys (keysD m) = true) : nodupKeys (keysD (setD m k v)) = true := by
  rw [keysD_setD]
  split
  · exact h
  · next hmem =>
    rw [nodupKeys_iff] at h ⊢
    simp [List.nodup_append, h, hmem]

theorem nodupKeys_updateD {α : Type} {m r : List (String × α)}
    (hm : nodupKeys (keysD m) = true) : nodupKeys (keysD (updateD m r)) = true := by
  induction r generalizing m with
  | nil => exact hm
  | cons kv rest ih =>
    obtain ⟨k0, v0⟩ := kv
    rw [show updateD m ((k0, v0) :: rest) = updateD (setD m k0 v0) rest from rfl]
    exact ih (nodupKeys_setD v0 hm)

/-! Preservation of well-formedness by `recursive_merge`, and idempotence. -/

theorem sizeOf_dict_pos (d : Dict) : 0 < sizeOf d := by
  cases d with
  | nil => simp
  | cons kv rest =>
    simp only [List.cons.sizeOf_spec]
    omega

theorem dictWF_of_lookups {d : Dict}
    (hnd : nodupKeys (keysD d) = true)
    (hv : ∀ k v, lookupD d k = some v → valWF v = true) : dictWF d = true := by
  rw [dictWF_iff]
  refine ⟨hnd, ?_⟩
  intro kv hkv
  obtain ⟨k, v⟩ := kv
  exact hv k v (mem_lookupD_of_nodup hnd hkv)

theorem valWF_mergedLookup {lv rv : Option Val}
    (hl : ∀ v, lv = some v → valWF v = true)
    (hr : ∀ v, rv = some v → valWF v = true)
    (hm : ∀ lm rm, lv = some (Val.map lm) → rv = some (Val.map rm) →
      dictWF (recursive_merge lm rm) = true) :
    ∀ v, mergedLookup lv rv = some v → valWF v = true := by
  intro v h
  cases lv with
  | none =>
    cases rv with
    | none => simp [mergedLookup, orD] at h
    | some w =>
      have hw : w = v := by
        cases w <;> simpa [mergedLookup, orD] using h
      exact hw ▸ hr _ rfl
  | some x =>
    cases rv with
    | none =>
      have hx : x = v := by
        cases x <;> simpa [mergedLookup, orD] using h
      exact hx ▸ hl _ rfl
    | some w =>
      cases x with
      | map lm =>
        cases w with
        | map rm =>
          have hv : Val.map (recursive_merge lm rm) = v := by
            simpa [mergedLookup] using h
          rw [← hv, valWF_map]
          exact hm lm rm rfl rfl
        | prim a =>
          have hw : Val.prim a = v := by simpa [mergedLookup, orD] using h
          exact hw ▸ hr _ rfl
        | str s =>
          have hw : Val.str s = v := by simpa [mergedLookup, orD] using h
          exact hw ▸ hr _ rfl
        | seq vs =>
          have hw : Val.seq vs = v := by simpa [mergedLookup, orD] using h
          exact hw ▸ hr _ rfl
      | prim a =>
        have hw : w = v := by cases w <;> simpa [mergedLookup, orD] using h
        exact hw ▸ hr _ rfl
      | str s =>
        have hw : w = v := by cases w <;> simpa [mergedLookup, orD] using h
        exact hw ▸ hr _ rfl
      | seq vs =>
        have hw : w = v := by cases w <;> simpa [mergedLookup, orD] using h
        exact hw ▸ hr _ rfl

theorem recursive_merge_WF_aux :
    ∀ n : Nat, ∀ l r : Dict, sizeOf l ≤ n → dictWF l = true → dictWF r = true →
      dictWF (recursive_merge l r) = true := by
  intro n
  induction n with
  | zero =>
    intro l r hle _ _
    exact absurd hle (by have := sizeOf_dict_pos l ; omega)
  | succ n ih =>
    intro l r hle hl hr
    have hndl := nodupKeys_of_dictWF hl
    have hndr := nodupKeys_of_dictWF hr
    apply dictWF_of_lookups
    · rw [recursive_merge]
      exact nodupKeys_updateD hndl
    · intro k v hv
      rw [lookupD_recursive_merge l r k hndl hndr] at hv
      refine valWF_mergedLookup ?_ ?_ ?_ v hv
      · exact fun w hw => valWF_of_lookup hl hw
      · exact fun w hw => valWF_of_lookup hr hw
      · intro lm rm h1 h2
        refine ih lm rm ?_ (dictWF_of_lookup_map hl h1) (dictWF_of_lookup_map hr h2)
        have := sizeOf_lt_of_lookup h1
        omega

theorem recursive_merge_WF {l r : Dict} (hl : dictWF l = true) (hr : dictWF r = true) :
    dictWF (recursive_merge l r) = true :=
  recursive_merge_WF_aux (sizeOf l) l r le_rfl hl hr

theorem mergeLoop_id {l : Dict} {r : Dict}
    (h : ∀ kv ∈ l, ∀ lm rm, kv.2 = Val.map lm → lookupD r kv.1 = some (Val.map rm) →
      Val.map (recursive_merge lm rm) = Val.map rm) :
    mergeLoop l r = r := by
  induction l with
  | nil => rw [mergeLoop]
  | cons kv rest ih =>
    obtain ⟨k0, v0⟩ := kv
    rw [mergeLoop]
    have hk : mergeKey r k0 v0 = r := by
      cases hrv : lookupD r k0 with
      | none => cases v0 <;> simp [mergeKey, hrv]
      | some w =>
        cases w with
        | prim a => cases v0 <;> simp [mergeKey, hrv]
        | str s => cases v0 <;> simp [mergeKey, hrv]
        | seq vs => cases v0 <;> simp [mergeKey, hrv]
        | map rm =>
          cases v0 with
          | prim a => simp [mergeKey, hrv]
          | str s => simp [mergeKey, hrv]
          | seq vs => simp [mergeKey, hrv]
          | map lm =>
            have heq := h (k0, Val.map lm) (List.mem_cons_self _ _) lm rm rfl hrv
            rw [show mergeKey r k0 (Val.map lm) =
                setD r k0 (Val.map (recursive_merge lm rm)) by simp [mergeKey, hrv]]
            rw [heq]
            exact setD_self hrv
    rw [hk]
    exact ih fun kv hkv => h kv (List.mem_cons_of_mem _ hkv)

theorem recursive_merge_self_aux :
    ∀ n : Nat, ∀ x : Dict, sizeOf x ≤ n → dictWF x = true → recursive_merge x x = x := by
  intro n
  induction n with
  | zero =>
    intro x hle _
    exact absurd hle (by have := sizeOf_dict_pos x ; omega)
  | succ n ih =>
    intro x hle hx
    have hnd := nodupKeys_of_dictWF hx
    have hloop : mergeLoop x x = x := by
      apply mergeLoop_id
      intro kv hkv lm rm hv hlook
      obtain ⟨k0, v0⟩ := kv
      have hv2 : v0 = Val.map lm := hv
      have hlook2 : lookupD x k0 = some (Val.map rm) := hlook
      have hl0 : lookupD x k0 = some v0 := mem_lookupD_of_nodup hnd hkv
      rw [hv2] at hl0
      have hmm : Val.map lm = Val.map rm := Option.some.inj (hl0.symm.trans hlook2)
      have hlmrm : lm = rm := by injection hmm
      subst hlmrm
      congr 1
      refine ih lm ?_ (dictWF_of_lookup_map hx hl0)
      have := sizeOf_lt_of_lookup hl0
      omega
    rw [recursive_merge, hloop]
    apply updateD_self
    intro kv hkv
    obtain ⟨k0, v0⟩ := kv
    exact mem_lookupD_of_nodup hnd hkv

/-! Lemmas about `eraseKey`, key presence through merging, and override paths. -/

theorem mem_eraseKey {α : Type} {d : List (String × α)} {key : String} {kv : String × α}
    (h : kv ∈ eraseKey d key) : kv ∈ d := by
  induction d with
  | nil => simp [eraseKey] at h
  | cons kv0 rest ih =>
    obtain ⟨k0, v0⟩ := kv0
    by_cases hk : k0 = key
    · rw [show eraseKey ((k0, v0) :: rest) key = rest by simp [eraseKey, hk]] at h
      exact List.mem_cons_of_mem _ h
    · rw [show eraseKey ((k0, v0) :: rest) key = (k0, v0) :: eraseKey rest key by
        simp [eraseKey, hk]] at h
      rcases List.mem_cons.mp h with heq | hm
      · exact heq ▸ List.mem_cons_self _ _
      · exact List.mem_cons_of_mem _ (ih hm)

theorem mem_keysD_eraseKey {α : Type} {d : List (String × α)} {key k : String}
    (h : k ∈ keysD (eraseKey d key)) : k ∈ keysD d := by
  rw [keysD, List.mem_map] at h
  obtain ⟨kv, hkv, hfst⟩ := h
  rw [keysD, List.mem_map]
  exact ⟨kv, mem_eraseKey hkv, hfst⟩

theorem nodupKeys_eraseKey {α : Type} {d : List (String × α)} {key : String}
    (h : nodupKeys (keysD d) = true) : nodupKeys (keysD (eraseKey d key)) = true := by
  induction d with
  | nil => simp [eraseKey, keysD, nodupKeys]
  | cons kv0 rest ih =>
    obtain ⟨k0, v0⟩ := kv0
    rw [show keysD ((k0, v0) :: rest) = k0 :: keysD rest from rfl, nodupKeys_cons] at h
    by_cases hk : k0 = key
    · rw [show eraseKey ((k0, v0) :: rest) key = rest by simp [eraseKey, hk]]
      exact h.2
    · rw [show eraseKey ((k0, v0) :: rest) key = (k0, v0) :: eraseKey rest key by
        simp [eraseKey, hk]]
      rw [show keysD ((k0, v0) :: eraseKey rest key) = k0 :: keysD (eraseKey rest key) from rfl,
        nodupKeys_cons]
      refine ⟨?_, ih h.2⟩
      rw [memS_eq_false_iff]
      intro hmem
      exact absurd (mem_keysD_eraseKey hmem) (memS_eq_false_iff.mp h.1)

theorem dictWF_eraseKey {d : Dict} {key : String} (h : dictWF d = true) :
    dictWF (eraseKey d key) = true := by
  rw [dictWF_iff] at h ⊢
  exact ⟨nodupKeys_eraseKey h.1, fun kv hkv => h.2 kv (mem_eraseKey hkv)⟩

theorem lookupD_isSome_recursive_merge_right {l r : Dict} {k : String}
    (h : (lookupD r k).isSome = true) : (lookupD (recursive_merge l r) k).isSome = true := by
  rw [lookupD_isSome_iff] at h ⊢
  rw [recursive_merge]
  apply mem_keysD_updateD
  right
  rw [keysD_mergeLoop]
  exact h

theorem mergedLookup_some_right {lv : Option Val} {v : Val}
    (h : ∀ m : List (String × Val), v ≠ Val.map m) :
    mergedLookup lv (some v) = some v := by
  cases lv with
  | none => cases v <;> rfl
  | some x => cases x <;> cases v <;> first | rfl | exact absurd rfl (h _)

theorem getPath_recursive_merge_right (path : List String) :
    ∀ (l r : Dict), dictWF l = true → dictWF r = true →
      ∀ v, getPath r path = some v → (∀ m : List (String × Val), v ≠ Val.map m) →
      getPath (recursive_merge l r) path = some v := by
  induction path with
  | nil =>
    intro l r _ _ v hv _
    rw [show getPath r [] = none from rfl] at hv
    exact absurd hv (by simp)
  | cons k tail ih =>
    intro l r hl hr v hv hleaf
    cases tail with
    | nil =>
      rw [show getPath r [k] = lookupD r k from rfl] at hv
      rw [show getPath (recursive_merge l r) [k] = lookupD (recursive_merge l r) k from rfl]
      rw [lookupD_recursive_merge l r k (nodupKeys_of_dictWF hl) (nodupKeys_of_dictWF hr), hv]
      exact mergedLookup_some_right hleaf
    | cons k2 rest =>
      cases hrk : lookupD r k with
      | none => simp [getPath, hrk] at hv
      | some w =>
        cases w with
        | prim a => simp [getPath, hrk] at hv
        | str s => simp [getPath, hrk] at hv
        | seq vs => simp [getPath, hrk] at hv
        | map rm =>
          have hv2 : getPath rm (k2 :: rest) = some v := by
            simpa [getPath, hrk] using hv
          have hmerged := lookupD_recursive_merge l r k
            (nodupKeys_of_dictWF hl) (nodupKeys_of_dictWF hr)
          cases hlk : lookupD l k with
          | none =>
            rw [hlk, hrk] at hmerged
            simp [getPath, hmerged, mergedLookup]
            exact hv2
          | some x =>
            cases x with
            | prim a =>
              rw [hlk, hrk] at hmerged
              simp [getPath, hmerged, mergedLookup, orD]
              exact hv2
            | str s =>
              rw [hlk, hrk] at hmerged
              simp [getPath, hmerged, mergedLookup, orD]
              exact hv2
            | seq vs =>
              rw [hlk, hrk] at hmerged
              simp [getPath, hmerged, mergedLookup, orD]
              exact hv2
            | map lm =>
              rw [hlk, hrk] at hmerged
              simp [getPath, hmerged, mergedLookup, orD]
              exact ih lm rm (dictWF_of_lookup_map hl hlk) (dictWF_of_lookup_map hr hrk)
                v hv2 hleaf

/-! Lemmas about the magnetization loop and the protocol listing. -/

theorem magLoop_table_missing {t : MagTable} {z : ZValence} {kind : Kind}
    (h : lookupD t.entries kind.symbol = none) (rest : List Kind) (acc : List (String × ℚ)) :
    magLoop t z (kind :: rest) acc = .error (.keyError kind.symbol) := by
  simp [magLoop, h]

theorem magLoop_cons_some {t : MagTable} {z : ZValence} {kind : Kind} {q : ℚ}
    (h : kindMagnetization t z kind.symbol = some q) (rest : List Kind)
    (acc : List (String × ℚ)) :
    magLoop t z (kind :: rest) acc = magLoop t z rest (setD acc kind.name q) := by
  cases hl : lookupD t.entries kind.symbol with
  | none => simp [kindMagnetization, hl] at h
  | some mm =>
    by_cases hz : mm = 0
    · have hq : t.defaultValue = q := by simpa [kindMagnetization, hl, hz] using h
      simp [magLoop, hl, hz, hq]
    · cases hzv : z kind.symbol with
      | none => simp [kindMagnetization, hl, hz, hzv] at h
      | some zz =>
        have hq : mm / (zz : ℚ) = q := by simpa [kindMagnetization, hl, hz, hzv] using h
        simp [magLoop, hl, hz, hzv, hq]

theorem magLoop_cons_none {t : MagTable} {z : ZValence} {kind : Kind}
    (h : kindMagnetization t z kind.symbol = none) (rest : List Kind)
    (acc : List (String × ℚ)) :
    ∃ e, magLoop t z (kind :: rest) acc = Except.error e := by
  cases hl : lookupD t.entries kind.symbol with
  | none => exact ⟨_, magLoop_table_missing hl rest acc⟩
  | some mm =>
    by_cases hz : mm = 0
    · simp [kindMagnetization, hl, hz] at h
    · cases hzv : z kind.symbol with
      | none => exact ⟨PyErr.valueError, by simp [magLoop, hl, hz, hzv]⟩
      | some zz => simp [kindMagnetization, hl, hz, hzv] at h

theorem magLoop_frame {t : MagTable} {z : ZValence} :
    ∀ (kinds : List Kind) (acc m : List (String × ℚ)),
      magLoop t z kinds acc = .ok m → ∀ n, n ∉ kinds.map Kind.name →
      lookupD m n = lookupD acc n := by
  intro kinds
  induction kinds with
  | nil =>
    intro acc m h n _
    have : acc = m := by simpa [magLoop] using h
    rw [this]
  | cons kind0 rest ih =>
    intro acc m h n hn
    cases hkm : kindMagnetization t z kind0.symbol with
    | none =>
      obtain ⟨e, he⟩ := magLoop_cons_none hkm rest acc
      rw [he] at h
      simp at h
    | some q =>
      rw [magLoop_cons_some hkm rest acc] at h
      have hn1 : ¬ kind0.name = n := by
        intro hx
        exact hn (by simp [hx])
      rw [ih _ _ h n (fun hx => hn (List.mem_cons_of_mem _ hx)), lookupD_setD, if_neg hn1]

theorem magLoop_lookup {t : MagTable} {z : ZValence} :
    ∀ (kinds : List Kind) (acc m : List (String × ℚ)),
      (kinds.map Kind.name).Nodup → magLoop t z kinds acc = .ok m →
      ∀ kind ∈ kinds, lookupD m kind.name = kindMagnetization t z kind.symbol := by
  intro kinds
  induction kinds with
  | nil =>
    intro acc m _ _ kind hk
    simp at hk
  | cons kind0 rest ih =>
    intro acc m hnd h kind hk
    have hnd2 : kind0.name ∉ rest.map Kind.name ∧ (rest.map Kind.name).Nodup := by
      rw [List.map_cons, List.nodup_cons] at hnd
      exact hnd
    cases hkm : kindMagnetization t z kind0.symbol with
    | none =>
      obtain ⟨e, he⟩ := magLoop_cons_none hkm rest acc
      rw [he] at h
      simp at h
    | some q =>
      rw [magLoop_cons_some hkm rest acc] at h
      rcases List.mem_cons.mp hk with heq | hm
      · subst heq
        rw [magLoop_frame rest _ m h kind.name hnd2.1, lookupD_setD]
        simp [hkm]
      · exact ih _ _ hnd2.2 h kind hm

theorem magLoop_domain {t : MagTable} {z : ZValence} :
    ∀ (kinds : List Kind) (acc m : List (String × ℚ)),
      magLoop t z kinds acc = .ok m →
      ∀ n, (lookupD m n).isSome = true ↔
        (n ∈ kinds.map Kind.name ∨ (lookupD acc n).isSome = true) := by
  intro kinds
  induction kinds with
  | nil =>
    intro acc m h n
    have : acc = m := by simpa [magLoop] using h
    simp [this]
  | cons kind0 rest ih =>
    intro acc m h n
    cases hkm : kindMagnetization t z kind0.symbol with
    | none =>
      obtain ⟨e, he⟩ := magLoop_cons_none hkm rest acc
      rw [he] at h
      simp at h
    | some q =>
      rw [magLoop_cons_some hkm rest acc] at h
      rw [ih _ _ h n, lookupD_setD]
      by_cases hn : kind0.name = n
      · simp [hn]
      · rw [if_neg hn, List.map_cons, List.mem_cons]
        constructor
        · intro hx
          rcases hx with hx | hx
          · exact Or.inl (Or.inr hx)
          · exact Or.inr hx
        · intro hx
          rcases hx with (hx | hx) | hx
          · exact absurd hx.symm hn
          · exact Or.inl hx
          · exact Or.inr hx

theorem magLoop_error {t : MagTable} {z : ZValence} :
    ∀ (pre : List Kind) (kind : Kind) (post : List Kind) (acc : List (String × ℚ)),
      lookupD t.entries kind.symbol = none →
      (∀ k ∈ pre, (kindMagnetization t z k.symbol).isSome = true) →
      magLoop t z (pre ++ kind :: post) acc = .error (.keyError kind.symbol) := by
  intro pre
  induction pre with
  | nil =>
    intro kind post acc hl _
    simpa using magLoop_table_missing hl post acc
  | cons k0 rest ih =>
    intro kind post acc hl hpre
    obtain ⟨q, hq⟩ := Option.isSome_iff_exists.mp (hpre k0 (List.mem_cons_self _ _))
    rw [List.cons_append, magLoop_cons_some hq]
    exact ih kind post _ hl fun k hk => hpre k (List.mem_cons_of_mem _ hk)

theorem availLoop_ok (protocols : List (String × Dict))
    (h : ∀ pv ∈ protocols, (lookupD pv.2 "description").isSome = true) :
    availLoop protocols = .ok (protocols.map fun pv =>
      (pv.1, [("description", (lookupD pv.2 "description").getD (Val.prim 0))])) := by
  induction protocols with
  | nil => rfl
  | cons pv rest ih =>
    obtain ⟨p, values⟩ := pv
    obtain ⟨d, hd⟩ := Option.isSome_iff_exists.mp (h (p, values) (List.mem_cons_self _ _))
    have hd2 : lookupD values "description" = some d := hd
    rw [show availLoop ((p, values) :: rest) =
        (match lookupD values "description" with
        | none => Except.error (.keyError "description")
        | some d =>
          match availLoop rest with
          | .ok l => .ok ((p, [("description", d)]) :: l)
          | .error e => .error e) from rfl]
    rw [hd2, ih fun pv hpv => h pv (List.mem_cons_of_mem _ hpv)]
    simp [hd2]

/-! Remaining helper lemmas for the claim theorems. -/

theorem mergedLookup_isSome (lv rv : Option Val) :
    (mergedLookup lv rv).isSome = true ↔ (lv.isSome = true ∨ rv.isSome = true) := by
  cases lv with
  | none =>
    cases rv with
    | none => simp [mergedLookup, orD]
    | some w => cases w <;> simp [mergedLookup, orD]
  | some x =>
    cases rv with
    | none => cases x <;> simp [mergedLookup, orD]
    | some w => cases x <;> cases w <;> simp [mergedLookup, orD]

theorem loopLookup_not_map {lv rv : Option Val}
    (h : ∀ lm rm : List (String × Val),
      ¬(lv = some (Val.map lm) ∧ rv = some (Val.map rm))) :
    loopLookup lv rv = rv := by
  cases lv with
  | none => exact loopLookup_none rv
  | some x =>
    cases x with
    | prim a =>
      cases rv with
      | none => rfl
      | some w => cases w <;> rfl
    | str s =>
      cases rv with
      | none => rfl
      | some w => cases w <;> rfl
    | seq vs =>
      cases rv with
      | none => rfl
      | some w => cases w <;> rfl
    | map lm =>
      cases rv with
      | none => rfl
      | some w =>
        cases w with
        | map rm => exact absurd ⟨rfl, rfl⟩ (h lm rm)
        | prim a => rfl
        | str s => rfl
        | seq vs => rfl

theorem get_protocol_inputs_named {data : ProtocolDocument} {p : String} {pd : Dict}
    (hp : ¬ p = "") (hlp : lookupD data.protocols p = some pd)
    (hdesc : (lookupD (recursive_merge data.base pd) "description").isSome = true) :
    get_protocol_inputs data (some p) none =
      Except.ok (eraseKey (recursive_merge data.base pd) "description") := by
  obtain ⟨d, hd⟩ := Option.isSome_iff_exists.mp hdesc
  simp [get_protocol_inputs, hp, hlp, hd]

theorem get_protocol_inputs_default {data : ProtocolDocument} {pd : Dict}
    (hlp : lookupD data.protocols data.defaultProtocol = some pd)
    (hdesc : (lookupD (recursive_merge data.base pd) "description").isSome = true) :
    get_protocol_inputs data none none =
      Except.ok (eraseKey (recursive_merge data.base pd) "description") := by
  obtain ⟨d, hd⟩ := Option.isSome_iff_exists.mp hdesc
  simp [get_protocol_inputs, hlp, hd]

theorem get_protocol_inputs_with_overrides {data : ProtocolDocument} {p : String} {pd ov : Dict}
    (hp : ¬ p = "") (hlp : lookupD data.protocols p = some pd)
    (hdesc : (lookupD (recursive_merge data.base pd) "description").isSome = true)
    (hov : ov ≠ []) :
    get_protocol_inputs data (some p) (some ov) =
      Except.ok (recursive_merge (eraseKey (recursive_merge data.base pd) "description") ov) := by
  obtain ⟨d, hd⟩ := Option.isSome_iff_exists.mp hdesc
  have hne : ov.isEmpty = false := by
    cases ov with
    | nil => exact absurd rfl hov
    | cons kv rest => rfl
  simp [get_protocol_inputs, hp, hlp, hd, hne]

theorem mergedLookup_right_wins {lv : Option Val} {rv : Val}
    (h : ∀ lm rm : List (String × Val), ¬(lv = some (Val.map lm) ∧ rv = Val.map rm)) :
    mergedLookup lv (some rv) = some rv := by
  cases lv with
  | none => cases rv <;> rfl
  | some x =>
    cases x with
    | map lm =>
      cases rv with
      | map rm => exact absurd ⟨rfl, rfl⟩ (h lm rm)
      | prim a => rfl
      | str s => rfl
      | seq vs => rfl
    | prim a => cases rv <;> rfl
    | str s => cases rv <;> rfl
    | seq vs => cases rv <;> rfl

/-! Claim theorems. -/

/-- C1: for dictionaries (duplicate-free keys), `recursive_merge(left, right)`
returns a mapping whose key set is the union of the two key sets; at every key
where both values are mappings the result holds their recursive merge; at
every other key present in both (keys with sequence values included) the
result holds the right value; a key present in only one argument keeps that
argument's value. -/
theorem C1_recursive_merge_contract (left right : Dict) (k : String)
    (hl : nodupKeys (keysD left) = true) (hr : nodupKeys (keysD right) = true) :
    ((lookupD (recursive_merge left right) k).isSome = true ↔
      ((lookupD left k).isSome = true ∨ (lookupD right k).isSome = true))
    ∧ (∀ lm rm : List (String × Val), lookupD left k = some (Val.map lm) →
        lookupD right k = some (Val.map rm) →
        lookupD (recursive_merge left right) k = some (Val.map (recursive_merge lm rm)))
    ∧ (∀ rv : Val, lookupD right k = some rv →
        (∀ lm rm : List (String × Val),
          ¬(lookupD left k = some (Val.map lm) ∧ rv = Val.map rm)) →
        lookupD (recursive_merge left right) k = some rv)
    ∧ (∀ lv : Val, lookupD left k = some lv → lookupD right k = none →
        lookupD (recursive_merge left right) k = some lv) := by
  have hchar := lookupD_recursive_merge left right k hl hr
  refine ⟨?_, ?_, ?_, ?_⟩
  · rw [hchar, mergedLookup_isSome]
  · intro lm rm h1 h2
    rw [hchar, h1, h2]
    rfl
  · intro rv h2 hno
    rw [hchar, h2]
    exact mergedLookup_right_wins hno
  · intro lv h1 h2
    rw [hchar, h1, h2]
    cases lv <;> rfl

/-- Witness for C1: concrete dictionaries sharing the key `a`, both values
mappings; the result holds their recursive merge there. -/
theorem C1_witness :
    nodupKeys (keysD exLeft) = true ∧ nodupKeys (keysD exRight) = true ∧
    lookupD (recursive_merge exLeft exRight) "a" =
      some (Val.map (recursive_merge [("x", Val.prim 1)]
        [("x", Val.prim 9), ("y", Val.prim 3)])) :=
  ⟨by decide, by decide,
    (C1_recursive_merge_contract exLeft exRight "a" (by decide) (by decide)).2.1
      [("x", Val.prim 1)] [("x", Val.prim 9), ("y", Val.prim 3)] rfl rfl⟩

/-- C5 counterexample: `recursive_merge` is not side-effect-free.  At the
concrete arguments below the loop executes
`right['a'] = recursive_merge(left['a'], right['a'])`, so after the call the
caller's `right` dictionary (modelled by `right_after_merge`) differs from its
value before the call. -/
theorem C5_counterexample : right_after_merge exMutLeft exMutRight ≠ exMutRight := by
  rw [show right_after_merge exMutLeft exMutRight = [("a", Val.map [("b", Val.prim 1)])] by
    simp [right_after_merge, exMutLeft, exMutRight, mergeLoop, mergeKey, lookupD, setD,
      recursive_merge, updateD]]
  simp [exMutRight]

/-- C5 (amended): `recursive_merge` never writes to `left`, but it does
mutate `right` in place: after the call, at every key where both arguments
held mappings, `right` holds their recursive merge, and at every other key
`right` is unchanged. -/
theorem C5_merge_mutates_right (left right : Dict) (k : String)
    (hl : nodupKeys (keysD left) = true) :
    (∀ lm rm : List (String × Val), lookupD left k = some (Val.map lm) →
      lookupD right k = some (Val.map rm) →
      lookupD (right_after_merge left right) k = some (Val.map (recursive_merge lm rm)))
    ∧ ((∀ lm rm : List (String × Val),
        ¬(lookupD left k = some (Val.map lm) ∧ lookupD right k = some (Val.map rm))) →
      lookupD (right_after_merge left right) k = lookupD right k) := by
  have hchar := lookupD_mergeLoop left right k hl
  constructor
  · intro lm rm h1 h2
    show lookupD (mergeLoop left right) k = _
    rw [hchar, h1, h2]
    rfl
  · intro hno
    show lookupD (mergeLoop left right) k = _
    rw [hchar]
    exact loopLookup_not_map hno

/-- Witness for the amended C5 at the concrete mutation example. -/
theorem C5_witness :
    nodupKeys (keysD exMutLeft) = true ∧
    lookupD (right_after_merge exMutLeft exMutRight) "a" =
      some (Val.map (recursive_merge [("b", Val.prim 1)] [])) :=
  ⟨by decide,
    (C5_merge_mutates_right exMutLeft exMutRight "a" (by decide)).1
      [("b", Val.prim 1)] [] rfl rfl⟩

/-- C6: merging a well-formed dictionary with itself returns it unchanged. -/
theorem C6_recursive_merge_idempotent (x : Dict) (h : dictWF x = true) :
    recursive_merge x x = x :=
  recursive_merge_self_aux (sizeOf x) x le_rfl h

/-- Witness for C6 at a concrete nested dictionary. -/
theorem C6_witness : dictWF exLeft = true ∧ recursive_merge exLeft exLeft = exLeft :=
  ⟨by simp [exLeft, dictWF, valWF, allValsWF, nodupKeys, memS, keysD],
   C6_recursive_merge_idempotent exLeft
     (by simp [exLeft, dictWF, valWF, allValsWF, nodupKeys, memS, keysD])⟩

/-- C2: with no overrides, `get_protocol_inputs` returns the recursive merge
of the document's `base` mapping with the named protocol's mapping, with the
`description` key removed; when no protocol name is given, the protocol named
by the document's `default` key is used. -/
theorem C2_protocol_inputs_no_overrides :
    (∀ (data : ProtocolDocument) (p : String) (pd : Dict) (d : Val),
      ¬ p = "" → lookupD data.protocols p = some pd →
      lookupD pd "description" = some d →
      get_protocol_inputs data (some p) none =
        Except.ok (eraseKey (recursive_merge data.base pd) "description"))
    ∧ (∀ (data : ProtocolDocument) (pd : Dict) (d : Val),
      lookupD data.protocols data.defaultProtocol = some pd →
      lookupD pd "description" = some d →
      get_protocol_inputs data none none =
        Except.ok (eraseKey (recursive_merge data.base pd) "description")) := by
  constructor
  · intro data p pd d hp hlp hd
    exact get_protocol_inputs_named hp hlp
      (lookupD_isSome_recursive_merge_right (by rw [hd] ; rfl))
  · intro data pd d hlp hd
    exact get_protocol_inputs_default hlp
      (lookupD_isSome_recursive_merge_right (by rw [hd] ; rfl))

/-- Witness for C2 at the concrete document, using the default protocol. -/
theorem C2_witness :
    lookupD exDoc.protocols exDoc.defaultProtocol = some exProtocol ∧
    lookupD exProtocol "description" = some (Val.str "balanced") ∧
    get_protocol_inputs exDoc none none =
      Except.ok (eraseKey (recursive_merge exDoc.base exProtocol) "description") :=
  ⟨rfl, rfl,
    C2_protocol_inputs_no_overrides.2 exDoc exProtocol (Val.str "balanced") rfl rfl⟩

/-- C3: with a non-empty overrides mapping, every leaf value of the overrides
(at any nested path) appears unchanged in the result of
`get_protocol_inputs`, overriding the merged base/protocol value at that
path, and at keys where both the merged inputs and the overrides hold
mappings the result holds their key-wise recursive merge. -/
theorem C3_overrides_precedence (data : ProtocolDocument) (p : String) (pd ov : Dict)
    (hp : ¬ p = "") (hlp : lookupD data.protocols p = some pd)
    (hb : dictWF data.base = true) (hpd : dictWF pd = true) (hov : dictWF ov = true)
    (hdesc : (lookupD (recursive_merge data.base pd) "description").isSome = true)
    (hne : ov ≠ []) :
    get_protocol_inputs data (some p) (some ov) =
      Except.ok (recursive_merge (eraseKey (recursive_merge data.base pd) "description") ov)
    ∧ (∀ (path : List String) (v : Val), getPath ov path = some v →
        (∀ m : List (String × Val), v ≠ Val.map m) →
        getPath (recursive_merge (eraseKey (recursive_merge data.base pd) "description") ov)
          path = some v)
    ∧ (∀ (k : String) (lm rm : List (String × Val)),
        lookupD (eraseKey (recursive_merge data.base pd) "description") k =
          some (Val.map lm) →
        lookupD ov k = some (Val.map rm) →
        lookupD (recursive_merge (eraseKey (recursive_merge data.base pd) "description") ov)
          k = some (Val.map (recursive_merge lm rm))) := by
  have hWFinputs : dictWF (eraseKey (recursive_merge data.base pd) "description") = true :=
    dictWF_eraseKey (recursive_merge_WF hb hpd)
  refine ⟨get_protocol_inputs_with_overrides hp hlp hdesc hne, ?_, ?_⟩
  · intro path v hpath hleaf
    exact getPath_recursive_merge_right path _ ov hWFinputs hov v hpath hleaf
  · intro k lm rm h1 h2
    rw [lookupD_recursive_merge _ ov k (nodupKeys_of_dictWF hWFinputs)
      (nodupKeys_of_dictWF hov), h1, h2]
    rfl

/-- Witness for C3 at concrete inputs: the override leaf at the nested path
`sub.y` survives into the result. -/
theorem C3_witness :
    (¬ "moderate" = "") ∧
    lookupD exDoc.protocols "moderate" = some exProtocol ∧
    dictWF exDoc.base = true ∧ dictWF exProtocol = true ∧ dictWF exOverrides = true ∧
    (lookupD (recursive_merge exDoc.base exProtocol) "description").isSome = true ∧
    exOverrides ≠ [] ∧
    getPath (recursive_merge (eraseKey (recursive_merge exDoc.base exProtocol) "description")
      exOverrides) ["sub", "y"] = some (Val.prim 9) := by
  have h1 : ¬ "moderate" = "" := by decide
  have h2 : lookupD exDoc.protocols "moderate" = some exProtocol := rfl
  have h3 : dictWF exDoc.base = true := by
    simp [exDoc, dictWF, valWF, allValsWF, nodupKeys, memS, keysD]
  have h4 : dictWF exProtocol = true := by
    simp [exProtocol, dictWF, valWF, allValsWF, nodupKeys, memS, keysD]
  have h5 : dictWF exOverrides = true := by
    simp [exOverrides, dictWF, valWF, allValsWF, nodupKeys, memS, keysD]
  have h6 : (lookupD (recursive_merge exDoc.base exProtocol) "description").isSome = true := by
    simp [exDoc, exProtocol, recursive_merge, mergeLoop, mergeKey, updateD, setD, lookupD]
  have h7 : exOverrides ≠ [] := by simp [exOverrides]
  exact ⟨h1, h2, h3, h4, h5, h6, h7,
    (C3_overrides_precedence exDoc "moderate" exProtocol exOverrides h1 h2 h3 h4 h5 h6 h7).2.1
      ["sub", "y"] (Val.prim 9) rfl (fun m hm => Val.noConfusion hm)⟩

/-- C4: when `get_initial_magnetization` succeeds, a kind whose tabulated
moment is exactly zero is assigned the table's default value (no valence is
involved), and a kind with a nonzero tabulated moment is assigned that moment
divided by the element's valence-electron count from the pseudopotential
family. -/
theorem C4_initial_magnetization (kinds : List Kind) (table : MagTable) (zval : ZValence)
    (m : List (String × ℚ)) (hnd : (kinds.map Kind.name).Nodup)
    (h : get_initial_magnetization kinds table zval = Except.ok m) :
    ∀ kind ∈ kinds, ∀ mm : ℚ, lookupD table.entries kind.symbol = some mm →
      (mm = 0 → lookupD m kind.name = some table.defaultValue) ∧
      (¬ mm = 0 → ∀ z : Nat, zval kind.symbol = some z →
        lookupD m kind.name = some (mm / (z : ℚ))) := by
  intro kind hk mm hmm
  have hbase := magLoop_lookup kinds [] m hnd h kind hk
  constructor
  · intro hz
    rw [hbase]
    simp [kindMagnetization, hmm, hz]
  · intro hz z hzv
    rw [hbase]
    simp [kindMagnetization, hmm, hz, hzv]

/-- Witness for C4: oxygen (zero moment) gets the default value, iron
(nonzero moment) gets moment over valence. -/
theorem C4_witness :
    (exKinds.map Kind.name).Nodup ∧
    get_initial_magnetization exKinds exTable exZval = Except.ok exMag ∧
    lookupD exMag "O" = some exTable.defaultValue ∧
    lookupD exMag "Fe" = some ((4 : ℚ) / ((16 : ℕ) : ℚ)) := by
  have h : get_initial_magnetization exKinds exTable exZval = Except.ok exMag := by
    simp [get_initial_magnetization, magLoop, exTable, exZval, exKinds, exMag, lookupD, setD]
    norm_num
  have hnd : (exKinds.map Kind.name).Nodup := by decide
  refine ⟨hnd, h, ?_, ?_⟩
  · exact (C4_initial_magnetization exKinds exTable exZval exMag hnd h
      ⟨"O", "O"⟩ (by decide) 0 rfl).1 rfl
  · exact (C4_initial_magnetization exKinds exTable exZval exMag hnd h
      ⟨"Fe", "Fe"⟩ (by decide) 4 rfl).2 (by norm_num) 16 rfl

/-- C7: `get_available_protocols` returns a mapping whose keys are exactly
the protocol names of the document, in order, each protocol mapped to a
dictionary holding only the key `description` with that protocol's
description. -/
theorem C7_available_protocols (data : ProtocolDocument)
    (h : ∀ pv ∈ data.protocols, (lookupD pv.2 "description").isSome = true) :
    get_available_protocols data = Except.ok (data.protocols.map fun pv =>
      (pv.1, [("description", (lookupD pv.2 "description").getD (Val.prim 0))])) :=
  availLoop_ok data.protocols h

/-- Witness for C7 at the concrete document. -/
theorem C7_witness :
    (∀ pv ∈ exDoc.protocols, (lookupD pv.2 "description").isSome = true) ∧
    get_available_protocols exDoc = Except.ok (exDoc.protocols.map fun pv =>
      (pv.1, [("description", (lookupD pv.2 "description").getD (Val.prim 0))])) :=
  ⟨by decide, C7_available_protocols exDoc (by decide)⟩

/-- C8 counterexample: the empty string is a protocol name absent from the
document's `protocols` mapping, yet the call does not fail:
`protocol or data['default']` treats the empty string as falsy, substitutes
the default protocol, and returns a result. -/
theorem C8_counterexample :
    lookupD exDoc2.protocols "" = none ∧
    get_protocol_inputs exDoc2 (some "") none = Except.ok [("x", Val.prim 1)] := by
  constructor
  · rfl
  · simp [get_protocol_inputs, exDoc2, lookupD, recursive_merge, mergeLoop, mergeKey,
      updateD, setD, eraseKey]

/-- C8 (amended): a non-empty protocol name absent from the document's
`protocols` mapping causes `get_protocol_inputs` to fail with the key-lookup
error for that name, and an element symbol absent from the magnetization
table, encountered after kinds that all succeed, causes
`get_initial_magnetization` to fail with the key-lookup error for that
symbol; no substituted result is returned. -/
theorem C8_key_lookup_errors :
    (∀ (data : ProtocolDocument) (p : String) (ov : Option Dict),
      ¬ p = "" → lookupD data.protocols p = none →
      get_protocol_inputs data (some p) ov = Except.error (PyErr.keyError p))
    ∧ (∀ (table : MagTable) (zval : ZValence) (pre : List Kind) (kind : Kind)
        (post : List Kind),
      lookupD table.entries kind.symbol = none →
      (∀ k ∈ pre, (kindMagnetization table zval k.symbol).isSome = true) →
      get_initial_magnetization (pre ++ kind :: post) table zval =
        Except.error (PyErr.keyError kind.symbol)) := by
  constructor
  · intro data p ov hp hl
    simp [get_protocol_inputs, hp, hl]
  · intro table zval pre kind post hl hpre
    exact magLoop_error pre kind post [] hl hpre

/-- Witness for the amended C8: an unknown non-empty protocol name, and a
kind with an untabulated element symbol. -/
theorem C8_witness :
    (¬ "fast" = "") ∧ lookupD exDoc2.protocols "fast" = none ∧
    get_protocol_inputs exDoc2 (some "fast") none = Except.error (PyErr.keyError "fast") ∧
    lookupD exTable.entries "Xx" = none ∧
    get_initial_magnetization ([⟨"Fe", "Fe"⟩] ++ (⟨"Xx", "Xx"⟩ : Kind) :: []) exTable exZval =
      Except.error (PyErr.keyError (Kind.symbol ⟨"Xx", "Xx"⟩)) :=
  ⟨by decide, rfl,
    C8_key_lookup_errors.1 exDoc2 "fast" none (by decide) rfl,
    rfl,
    C8_key_lookup_errors.2 exTable exZval [⟨"Fe", "Fe"⟩] ⟨"Xx", "Xx"⟩ [] rfl (by decide)⟩

/-- C9: passing the empty string as the protocol name behaves identically to
passing no protocol name: the document's default protocol is used. -/
theorem C9_empty_protocol_name (data : ProtocolDocument) (overrides : Option Dict) :
    get_protocol_inputs data (some "") overrides = get_protocol_inputs data none overrides :=
  rfl

/-- C10: when `get_initial_magnetization` succeeds, the keys of the result
are exactly the structure's kind names, and since table and pseudopotential
lookups go by element symbol, kinds sharing a symbol under different names
receive equal values. -/
theorem C10_magnetization_keys (kinds : List Kind) (table : MagTable) (zval : ZValence)
    (m : List (String × ℚ))
    (h : get_initial_magnetization kinds table zval = Except.ok m) :
    (∀ n, (lookupD m n).isSome = true ↔ n ∈ kinds.map Kind.name)
    ∧ ((kinds.map Kind.name).Nodup → ∀ k1 ∈ kinds, ∀ k2 ∈ kinds,
        k1.symbol = k2.symbol → lookupD m k1.name = lookupD m k2.name) := by
  constructor
  · intro n
    have hd := magLoop_domain kinds [] m h n
    simpa [lookupD] using hd
  · intro hnd k1 h1 k2 h2 hsym
    rw [magLoop_lookup kinds [] m hnd h k1 h1, magLoop_lookup kinds [] m hnd h k2 h2, hsym]

/-- Witness for C10: the two iron kinds `Fe` and `Fe2` share the symbol `Fe`
and receive equal values, and the result's keys are the kind names. -/
theorem C10_witness :
    get_initial_magnetization exKinds exTable exZval = Except.ok exMag ∧
    ((lookupD exMag "Fe2").isSome = true ↔ "Fe2" ∈ exKinds.map Kind.name) ∧
    lookupD exMag "Fe" = lookupD exMag "Fe2" := by
  have h : get_initial_magnetization exKinds exTable exZval = Except.ok exMag := by
    simp [get_initial_magnetization, magLoop, exTable, exZval, exKinds, exMag, lookupD, setD]
    norm_num
  refine ⟨h, (C10_magnetization_keys exKinds exTable exZval exMag h).1 "Fe2", ?_⟩
  exact (C10_magnetization_keys exKinds exTable exZval exMag h).2 (by decide)
    ⟨"Fe", "Fe"⟩ (by decide) ⟨"Fe2", "Fe"⟩ (by decide) rfl
